import Mathlib

/-!
Verification of the Swing/ring allreduce schedule simulators.

Shallow embedding of the algorithmic core of the repository:
  * `rho`, `pi`, `swing_steps`, `accumulate_step`, `build_matrix`
    from `src/swing_heatmap.py`;
  * `simulate_reduce_scatter` / `simulate_allgather` ring dynamics
    from `src/torus_round_tables.py`.
Rendering (matplotlib) code is not modelled; the per-round record rows
only feed rendering and are omitted, as is the `output_dir` parameter.
-/

/-- Python's `%` on integers: true mathematical modulo, result in
`[0, n)` for positive `n` (this is exactly `Int.emod` in Lean). -/
def pymod (a : ℤ) (n : ℕ) : ℤ := a % (n : ℤ)

lemma pymod_nonneg {n : ℕ} (hn : 0 < n) (a : ℤ) : 0 ≤ pymod a n :=
  Int.emod_nonneg a (by exact_mod_cast hn.ne')

lemma pymod_lt {n : ℕ} (hn : 0 < n) (a : ℤ) : pymod a n < n :=
  Int.emod_lt_of_pos a (by exact_mod_cast hn)

lemma pymod_emod {n : ℕ} (a : ℤ) : pymod a n % (n : ℤ) = pymod a n :=
  Int.emod_emod_of_dvd a dvd_rfl

/-- Rewriting under `pymod`: congruent integers have equal `pymod`. -/
lemma pymod_congr {n : ℕ} {a b : ℤ} (h : a % (n : ℤ) = b % (n : ℤ)) :
    pymod a n = pymod b n := h

lemma pymod_add_left {n : ℕ} (a b : ℤ) :
    pymod (pymod a n + b) n = pymod (a + b) n := by
  unfold pymod
  rw [Int.add_emod, Int.emod_emod_of_dvd a dvd_rfl, ← Int.add_emod]

lemma pymod_sub_left {n : ℕ} (a b : ℤ) :
    pymod (pymod a n - b) n = pymod (a - b) n := by
  unfold pymod
  rw [Int.sub_emod, Int.emod_emod_of_dvd a dvd_rfl, ← Int.sub_emod]

lemma pymod_of_lt {n : ℕ} {a : ℤ} (h0 : 0 ≤ a) (h : a < n) : pymod a n = a :=
  Int.emod_eq_of_lt h0 h

lemma pymod_natCast {n r : ℕ} (h : r < n) : pymod (r : ℤ) n = r :=
  pymod_of_lt (by positivity) (by exact_mod_cast h)

/-- Two integers that differ by something not divisible by `n` have
distinct `pymod`s. -/
lemma pymod_ne {n : ℕ} {a b : ℤ} (h : ¬ ((n : ℤ) ∣ (a - b))) :
    pymod a n ≠ pymod b n := by
  intro hEq
  exact h (Int.dvd_of_emod_eq_zero
    (Int.emod_eq_emod_iff_emod_sub_eq_zero.mp hEq))

/-! ## `src/swing_heatmap.py` : Swing partner selection -/

/-- ρ(s) = Σ (i=0..s) (-2)^i, computed exactly as the Python loop does:
iterate `i` over `range(step + 1)` and add `1 << i` for even `i`,
subtract it for odd `i`. -/
def rho (step : ℕ) : ℤ :=
  (List.range (step + 1)).foldl
    (fun total i => total + (if i % 2 = 0 then ((2 : ℤ) ^ i) else -((2 : ℤ) ^ i))) 0

/-- π(r,s): communication partner for rank `r` at step `s`
(`pi` in `src/swing_heatmap.py`).  Even ranks add the offset, odd ranks
subtract it; Python's `%` normalizes into `[0, world_size)`. -/
def pi (rank step world_size : ℕ) : ℤ :=
  if rank % 2 = 0 then pymod ((rank : ℤ) + rho step) world_size
  else pymod ((rank : ℤ) - rho step) world_size

/-- `swing_steps` from `src/swing_heatmap.py`: number of rounds.
`world_size & (world_size - 1) == 0` is the power-of-two test; the
`int(math.log2 ...)` calls are floor-log2 (exact for every world size a
simulation run can use). -/
def swing_steps (world_size : ℕ) : ℕ :=
  if world_size < 2 then 0
  else if world_size &&& (world_size - 1) = 0 then Nat.log2 world_size
  else Nat.log2 world_size + 1

lemma rho_succ (s : ℕ) :
    rho (s + 1) = rho s +
      (if (s + 1) % 2 = 0 then ((2 : ℤ) ^ (s + 1)) else -((2 : ℤ) ^ (s + 1))) := by
  unfold rho
  rw [List.range_succ, List.foldl_append]
  simp

lemma rho_term (i : ℕ) :
    (if i % 2 = 0 then ((2 : ℤ) ^ i) else -((2 : ℤ) ^ i)) = (-2 : ℤ) ^ i := by
  rcases Nat.even_or_odd i with h | h
  · rw [if_pos (Nat.even_iff.mp h), (by norm_num : (-2 : ℤ) = -2),
      Even.neg_pow h]
  · rw [if_neg (by simpa [Nat.odd_iff] using h), Odd.neg_pow h]

lemma rho_eq_sum (s : ℕ) : rho s = ∑ i in Finset.range (s + 1), (-2 : ℤ) ^ i := by
  induction s with
  | zero => decide
  | succ t ih =>
      rw [rho_succ, ih, rho_term, Finset.sum_range_succ, Finset.sum_range_succ,
        Finset.sum_range_succ]

/-- C4: `distance(s)` (the source's `rho`) equals the alternating sum
Σ_{i=0..s} (−2)^i, and the concrete checks `rho 0 = 1`, `rho 1 = −1`,
`rho 2 = 3`, `rho 3 = −5` hold. -/
theorem rho_alternating_sum :
    (∀ s : ℕ, rho s = ∑ i in Finset.range (s + 1), (-2 : ℤ) ^ i) ∧
    rho 0 = 1 ∧ rho 1 = -1 ∧ rho 2 = 3 ∧ rho 3 = -5 := by
  refine ⟨rho_eq_sum, ?_, ?_, ?_, ?_⟩ <;> decide

/-- C3: the partner function is `(rank ± distance(round)) mod worldSize`
according to rank parity, normalized into `[0, worldSize)` even when the
intermediate value is negative; for worldSize = 16, round 0, rank 0's
partner is 1 and rank 1's partner is 0. -/
theorem pi_partner_spec (rank step world_size : ℕ) (hw : 1 ≤ world_size) :
    (pi rank step world_size =
      (if rank % 2 = 0 then pymod ((rank : ℤ) + rho step) world_size
       else pymod ((rank : ℤ) - rho step) world_size)) ∧
    0 ≤ pi rank step world_size ∧ pi rank step world_size < world_size ∧
    pi 0 0 16 = 1 ∧ pi 1 0 16 = 0 := by
  refine ⟨rfl, ?_, ?_, by decide, by decide⟩ <;>
    unfold pi <;> split
  · exact pymod_nonneg hw _
  · exact pymod_nonneg hw _
  · exact pymod_lt hw _
  · exact pymod_lt hw _

lemma pow_land_pred (k : ℕ) : (2 ^ k) &&& (2 ^ k - 1) = 0 := by
  apply Nat.eq_of_testBit_eq
  intro i
  rw [Nat.testBit_and, Nat.testBit_two_pow, Nat.testBit_two_pow_sub_one,
    Nat.zero_testBit]
  by_cases h : k = i
  · subst h; simp
  · simp [h]

lemma land_pred_ne_zero {w : ℕ} (h2 : 2 ≤ w) (hnp : ¬ ∃ k, w = 2 ^ k) :
    w &&& (w - 1) ≠ 0 := by
  have hw0 : w ≠ 0 := by omega
  have h1 : 2 ^ Nat.log2 w ≤ w := Nat.log2_self_le hw0
  have hup : w < 2 ^ (Nat.log2 w + 1) := Nat.lt_log2_self
  have hps : 2 ^ (Nat.log2 w + 1) = 2 * 2 ^ Nat.log2 w := by ring
  have hlt : 2 ^ Nat.log2 w < w :=
    lt_of_le_of_ne h1 (fun h => hnp ⟨Nat.log2 w, h.symm⟩)
  have tb1 : w.testBit (Nat.log2 w) = true := by
    rw [Nat.testBit_to_div_mod]
    have hdiv : w / 2 ^ Nat.log2 w = 1 :=
      Nat.div_eq_of_lt_le (by omega) (by omega)
    simp [hdiv]
  have tb2 : (w - 1).testBit (Nat.log2 w) = true := by
    rw [Nat.testBit_to_div_mod]
    have hdiv : (w - 1) / 2 ^ Nat.log2 w = 1 :=
      Nat.div_eq_of_lt_le (by omega) (by omega)
    simp [hdiv]
  intro h0
  have hbit : (w &&& (w - 1)).testBit (Nat.log2 w) = false := by
    rw [h0]; exact Nat.zero_testBit _
  rw [Nat.testBit_and, tb1, tb2] at hbit
  simp at hbit

lemma log2_two_pow (k : ℕ) : Nat.log2 (2 ^ k) = k := by
  rw [Nat.log2_eq_log_two]; exact Nat.log_pow (by norm_num) k

lemma swing_steps_of_lt {w : ℕ} (h : w < 2) : swing_steps w = 0 := by
  simp [swing_steps, h]

lemma swing_steps_two_pow {k : ℕ} (hk : 1 ≤ k) : swing_steps (2 ^ k) = k := by
  have h2 : 2 ≤ 2 ^ k := by
    calc 2 = 2 ^ 1 := by norm_num
    _ ≤ 2 ^ k := Nat.pow_le_pow_right (by norm_num) hk
  unfold swing_steps
  rw [if_neg (by omega), if_pos (pow_land_pred k), log2_two_pow]

lemma swing_steps_not_pow {w : ℕ} (h2 : 2 ≤ w) (hnp : ¬ ∃ k, w = 2 ^ k) :
    swing_steps w = Nat.log2 w + 1 := by
  unfold swing_steps
  rw [if_neg (by omega), if_neg (land_pred_ne_zero h2 hnp)]

lemma six_not_pow : ¬ ∃ k, (6 : ℕ) = 2 ^ k := by
  rintro ⟨k, hk⟩
  match k, hk with
  | 0, hk => omega
  | 1, hk => omega
  | 2, hk => omega
  | (k + 3), hk =>
    have h8 : 2 ^ 3 ≤ 2 ^ (k + 3) := Nat.pow_le_pow_right (by norm_num) (by omega)
    omega

lemma log2_six : Nat.log2 6 = 2 := by
  rw [Nat.log2_eq_log_two]
  exact Nat.log_eq_of_pow_le_of_lt_pow (by norm_num) (by norm_num)

/-- C5: `swing_steps` (the round count) is 0 for worldSize below 2, is
exactly k on worldSize 2^k with k at least 1, is floor(log2 worldSize)+1
on every other worldSize at least 2, hence equals ceil(log2 worldSize)
(that is, `Nat.clog 2`) for every worldSize at least 2; and
swing_steps 6 = 3. -/
theorem swing_steps_round_count :
    (∀ w, w < 2 → swing_steps w = 0) ∧
    (∀ k, 1 ≤ k → swing_steps (2 ^ k) = k) ∧
    (∀ w, 2 ≤ w → (¬ ∃ k, w = 2 ^ k) → swing_steps w = Nat.log2 w + 1) ∧
    (∀ w, 2 ≤ w → swing_steps w = Nat.clog 2 w) ∧
    swing_steps 6 = 3 := by
  refine ⟨fun w h => swing_steps_of_lt h,
    fun k hk => swing_steps_two_pow hk,
    fun w h2 hnp => swing_steps_not_pow h2 hnp, fun w h2 => ?_, ?_⟩
  · by_cases hp : ∃ k, w = 2 ^ k
    · obtain ⟨k, rfl⟩ := hp
      have hk : 1 ≤ k := by
        rcases k with _ | k
        · omega
        · omega
      rw [swing_steps_two_pow hk, Nat.clog_pow 2 k (by norm_num)]
    · rw [swing_steps_not_pow h2 hp, Nat.log2_eq_log_two]
      have hw0 : w ≠ 0 := by omega
      have hlog_le : 2 ^ Nat.log 2 w ≤ w := Nat.pow_log_le_self 2 hw0
      have hlt2 : w < 2 ^ (Nat.log 2 w + 1) :=
        Nat.lt_pow_succ_log_self (by norm_num) w
      have hne : 2 ^ Nat.log 2 w < w :=
        lt_of_le_of_ne hlog_le (fun h => hp ⟨Nat.log 2 w, h.symm⟩)
      have hub : Nat.clog 2 w ≤ Nat.log 2 w + 1 :=
        (Nat.le_pow_iff_clog_le (by norm_num)).mp hlt2.le
      have hlb : Nat.log 2 w < Nat.clog 2 w := by
        by_contra hcon
        push_neg at hcon
        have := (Nat.le_pow_iff_clog_le (by norm_num : 1 < 2)).mpr hcon
        omega
      omega
  · rw [swing_steps_not_pow (by norm_num) six_not_pow, log2_six]

/-- C5 witness: concrete instantiations of each clause of the round-count
theorem. -/
theorem swing_steps_round_count_witness :
    swing_steps 1 = 0 ∧ swing_steps 8 = 3 ∧
    swing_steps 6 = Nat.log2 6 + 1 ∧ swing_steps 6 = Nat.clog 2 6 :=
  ⟨swing_steps_round_count.1 1 (by norm_num),
   by
     have h := swing_steps_round_count.2.1 3 (by norm_num)
     norm_num at h
     exact h,
   swing_steps_round_count.2.2.1 6 (by norm_num) six_not_pow,
   swing_steps_round_count.2.2.2.1 6 (by norm_num)⟩

/-! ## `src/swing_heatmap.py` : volume matrix accumulation

The numpy matrix is modelled as a total function on indices; cells outside
the `world_size` square are never written and stay 0.  Matrix entries are
modelled as rationals: the only non-integer arithmetic in the source is
`vector_size / (1 << (s + 1))`, a float division by a power of two, which
is exact in binary floating point for the magnitudes involved. -/

abbrev Mat := ℕ → ℕ → ℚ

def zeroMat : Mat := fun _ _ => 0

/-- One `accumulate_step` call: for every rank, add `bytes_per_send` into
`matrix[rank][pi rank step world_size]`. -/
def accumulate_step (matrix : Mat) (world_size step : ℕ) (bytes_per_send : ℚ) : Mat :=
  (List.range world_size).foldl
    (fun m rank => fun i j =>
      if i = rank ∧ j = (pi rank step world_size).toNat then m i j + bytes_per_send
      else m i j)
    matrix

/-- `build_matrix` body (after the `np.zeros` allocation): the
`variant == "bandwidth"` branch does a forward sweep then a reverse sweep
with halved payloads `vector_size / 2^(s+1)`; any other variant string
falls into the `else` branch, which sends the full `vector_size` once per
step. -/
def build_core (world_size : ℕ) (vector_size : ℤ) (variant : String) : Mat :=
  if variant = "bandwidth" then
    ((List.range (swing_steps world_size)).reverse).foldl
      (fun m s => accumulate_step m world_size s ((vector_size : ℚ) / 2 ^ (s + 1)))
      ((List.range (swing_steps world_size)).foldl
        (fun m s => accumulate_step m world_size s ((vector_size : ℚ) / 2 ^ (s + 1)))
        zeroMat)
  else
    (List.range (swing_steps world_size)).foldl
      (fun m s => accumulate_step m world_size s (vector_size : ℚ)) zeroMat

/-- `build_matrix` from `src/swing_heatmap.py`.  The only way the Python
function can fail is the initial `np.zeros((world_size, world_size))`
allocation, which raises ValueError for a negative dimension; that is the
`none` case.  No argument validation of any kind is performed. -/
def build_matrix (world_size : ℤ) (vector_size : ℤ) (variant : String) : Option Mat :=
  if world_size < 0 then none
  else some (build_core world_size.toNat vector_size variant)

lemma pi_toNat_lt {ws : ℕ} (hw : 1 ≤ ws) (r s : ℕ) : (pi r s ws).toNat < ws := by
  have h1 : 0 ≤ pi r s ws := by
    unfold pi; split
    exacts [pymod_nonneg hw _, pymod_nonneg hw _]
  have h2 : pi r s ws < ws := by
    unfold pi; split
    exacts [pymod_lt hw _, pymod_lt hw _]
  omega

lemma count_list_range (i n : ℕ) : (List.range n).count i = if i < n then 1 else 0 := by
  induction n with
  | zero => simp
  | succ n ih =>
      rw [List.range_succ, List.count_append, ih]
      by_cases h : i = n
      · subst h; simp
      · have : i < n + 1 ↔ i < n := by omega
        simp [h, this]

lemma foldl_upd_entry (ws s : ℕ) (b : ℚ) (L : List ℕ) (m : Mat) (i j : ℕ) :
    (L.foldl
      (fun m rank => fun x y =>
        if x = rank ∧ y = (pi rank s ws).toNat then m x y + b else m x y) m) i j
      = m i j + (if j = (pi i s ws).toNat then (L.count i : ℚ) * b else 0) := by
  induction L generalizing m with
  | nil => simp
  | cons x L ih =>
      rw [List.foldl_cons, ih, List.count_cons]
      by_cases hx : i = x
      · subst hx
        by_cases hj : j = (pi i s ws).toNat
        · simp only [hj, and_self, beq_self_eq_true, eq_self_iff_true, if_true]
          push_cast
          ring
        · simp [hj]
      · have hxx : ¬(i = x ∧ j = (pi x s ws).toNat) := fun h => hx h.1
        simp only [if_neg hxx]
        have : (x == i) = false := by simp [Ne.symm hx]
        simp [this]

lemma accumulate_entry (m : Mat) (ws s : ℕ) (b : ℚ) (i j : ℕ) :
    accumulate_step m ws s b i j =
      m i j + (if i < ws ∧ j = (pi i s ws).toNat then b else 0) := by
  unfold accumulate_step
  rw [foldl_upd_entry, count_list_range]
  by_cases hi : i < ws
  · by_cases hj : j = (pi i s ws).toNat <;> simp [hi, hj]
  · by_cases hj : j = (pi i s ws).toNat <;> simp [hi, hj]

/-- Sum of one matrix row over the `world_size` columns. -/
def rowSum (m : Mat) (ws r : ℕ) : ℚ := ∑ j in Finset.range ws, m r j

lemma rowSum_accumulate (m : Mat) {ws : ℕ} (s : ℕ) (b : ℚ) {r : ℕ} (hr : r < ws) :
    rowSum (accumulate_step m ws s b) ws r = rowSum m ws r + b := by
  unfold rowSum
  rw [Finset.sum_congr rfl (fun j _ => accumulate_entry m ws s b r j),
    Finset.sum_add_distrib]
  have hpeer : (pi r s ws).toNat ∈ Finset.range ws := by
    simp [pi_toNat_lt (show 1 ≤ ws by omega) r s]
  have : (∑ j in Finset.range ws,
      if r < ws ∧ j = (pi r s ws).toNat then b else 0) = b := by
    simp only [hr, true_and]
    rw [Finset.sum_ite_eq' (Finset.range ws) ((pi r s ws).toNat) (fun _ => b),
      if_pos hpeer]
  rw [this]

lemma latency_rowSum {ws : ℕ} (vs : ℤ) {r : ℕ} (hr : r < ws) :
    rowSum (build_core ws vs "latency") ws r = (swing_steps ws : ℚ) * (vs : ℚ) := by
  have hlat : build_core ws vs "latency" =
      (List.range (swing_steps ws)).foldl
        (fun m s => accumulate_step m ws s (vs : ℚ)) zeroMat := by
    unfold build_core
    rw [if_neg (by decide)]
  rw [hlat]
  have key : ∀ (L : List ℕ) (m : Mat),
      rowSum (L.foldl (fun m s => accumulate_step m ws s (vs : ℚ)) m) ws r
        = rowSum m ws r + (L.length : ℚ) * (vs : ℚ) := by
    intro L
    induction L with
    | nil => intro m; simp
    | cons s L ih =>
        intro m
        rw [List.foldl_cons, ih, rowSum_accumulate m s _ hr, List.length_cons]
        push_cast
        ring
  rw [key]
  simp [rowSum, zeroMat]

lemma swing_steps_four : swing_steps 4 = 2 := by
  have h := swing_steps_two_pow (k := 2) (by norm_num)
  norm_num at h
  exact h

/-- C8: under the latency variant every round adds the full vectorSize
into `matrix[rank][pi rank round ws]` (exactly once per round for each
rank), and consequently every row sum equals roundCount * vectorSize; in
particular for worldSize 4 and vectorSize 4096 every row sums to 8192. -/
theorem latency_variant_row_sums (ws : ℕ) (_hw : 1 ≤ ws) (vs : ℤ) (r : ℕ)
    (hr : r < ws) :
    rowSum (build_core ws vs "latency") ws r = (swing_steps ws : ℚ) * (vs : ℚ) ∧
    (∀ (m : Mat) (s : ℕ),
      accumulate_step m ws s (vs : ℚ) r ((pi r s ws).toNat)
        = m r ((pi r s ws).toNat) + (vs : ℚ)) ∧
    (∀ j, j < 4 → rowSum (build_core 4 4096 "latency") 4 j = 8192) := by
  refine ⟨latency_rowSum vs hr, fun m s => ?_, fun j hj => ?_⟩
  · rw [accumulate_entry]
    simp [hr]
  · rw [latency_rowSum (4096 : ℤ) hj, swing_steps_four]
    norm_num

/-- C8 witness at worldSize 4, vectorSize 4096, rank 0. -/
theorem latency_variant_row_sums_witness :
    1 ≤ 4 ∧ (0 : ℕ) < 4 ∧
    rowSum (build_core 4 4096 "latency") 4 0 = (swing_steps 4 : ℚ) * (4096 : ℚ) :=
  ⟨by norm_num, by norm_num,
    (latency_variant_row_sums 4 (by norm_num) 4096 0 (by norm_num)).1⟩

/-- C10: any variant string other than "bandwidth" (recognized or not)
takes the `else` branch of `build_matrix` and so produces exactly the
latency-variant matrix, with no error raised. -/
theorem nonbandwidth_variant_eq_latency (ws : ℕ) (vs : ℤ) (v : String)
    (hv : v ≠ "bandwidth") :
    build_core ws vs v = build_core ws vs "latency" ∧
    (∀ w : ℤ, 1 ≤ w →
      build_matrix w vs v = build_matrix w vs "latency" ∧
      (build_matrix w vs v).isSome = true) := by
  have hcore : ∀ n, build_core n vs v = build_core n vs "latency" := by
    intro n
    unfold build_core
    rw [if_neg hv, if_neg (by decide)]
  refine ⟨hcore ws, fun w hw => ⟨?_, ?_⟩⟩
  · unfold build_matrix
    rw [hcore]
  · unfold build_matrix
    rw [if_neg (by omega)]
    rfl

/-- C10 witness with the unrecognized variant string "turbo". -/
theorem nonbandwidth_variant_eq_latency_witness :
    build_core 4 4096 "turbo" = build_core 4 4096 "latency" ∧
    build_matrix 4 4096 "turbo" = build_matrix 4 4096 "latency" :=
  ⟨(nonbandwidth_variant_eq_latency 4 4096 "turbo" (by decide)).1,
   ((nonbandwidth_variant_eq_latency 4 4096 "turbo" (by decide)).2 4
     (by norm_num)).1⟩

/-- C6 counterexample: `build_matrix` does not reject invalid inputs.
worldSize 0 (< 1), a negative vectorSize, and an unrecognized variant
each produce a matrix instead of an invalid-argument error. -/
theorem build_matrix_no_validation :
    build_matrix 0 0 "latency" ≠ none ∧
    build_matrix 2 (-7) "latency" ≠ none ∧
    build_matrix 2 7 "turbo" ≠ none ∧
    build_matrix 0 (-7) "turbo" ≠ none := by
  refine ⟨?_, ?_, ?_, ?_⟩ <;>
    · unfold build_matrix
      rw [if_neg (by norm_num)]
      exact Option.some_ne_none _

/-- C6 amended: `build_matrix` performs no argument validation; the only
input it fails on is a negative worldSize (the numpy allocation raises),
while worldSize 0, negative vectorSize and unknown variants all produce a
matrix (unknown variants behave as the latency variant). -/
theorem build_matrix_error_iff (ws vs : ℤ) (v : String) :
    build_matrix ws vs v = none ↔ ws < 0 := by
  unfold build_matrix
  split
  · simp [*]
  · simp [*]

/-! ## `src/torus_round_tables.py` : ring reduce-scatter / allgather

A chunk is a dict `{"idx": ..., "contributors": {...}}`; a process's
holdings ledger maps chunk index to chunk (modelled as a total function
into `Option Chunk`, `none` for an absent key).  `vector_size` only feeds
the `bytes_sent`/`bytes_recv` fields of the rendering rows
(`chunk_bytes = vector_size // num_procs`) and never influences the
ledgers or `last_received`, so it does not appear in the state.  Within a
round the source first builds the complete `transmissions` dict from the
pre-round state, then applies all receives, which is exactly a pure step
function on the pre-round state. -/

structure Chunk where
  idx : ℕ
  contributors : Finset ℕ
deriving DecidableEq

structure RingState where
  holdings : ℕ → ℕ → Option Chunk
  last : ℕ → ℕ

/-- Initial reduce-scatter state: process r holds exactly
`{r: {"idx": r, "contributors": {r}}}` and `last_received[r] = r`. -/
def rsInit (num_procs : ℕ) : RingState where
  holdings := fun r k =>
    if r < num_procs ∧ k = r then some ⟨r, {r}⟩ else none
  last := fun r => r

/-- `(r - 1) % num_procs`: the neighbour a process receives from. -/
def prevRank (n r : ℕ) : ℕ := (pymod ((r : ℤ) - 1) n).toNat

/-- `send_idx = (r - step) % num_procs` in the reduce-scatter round. -/
def sendIdx (n s r : ℕ) : ℕ := (pymod ((r : ℤ) - s) n).toNat

/-- `recv_idx = (r - step - 1) % num_procs` in the reduce-scatter round. -/
def recvIdx (n s r : ℕ) : ℕ := (pymod ((r : ℤ) - s - 1) n).toNat

/-- One reduce-scatter round: every process pops the chunk at `send_idx`
and sends it to `(r+1) % n`; then every process takes the incoming chunk
(the one its predecessor sent), adds itself to the contributor set, stores
it at `recv_idx`, and records `last_received[r] = recv_idx`. -/
def rsStep (n s : ℕ) (st : RingState) : RingState where
  holdings := fun r k =>
    if r < n then
      if k = recvIdx n s r then
        (st.holdings (prevRank n r) (sendIdx n s (prevRank n r))).map
          (fun c => ⟨c.idx, insert r c.contributors⟩)
      else if k = sendIdx n s r then none
      else st.holdings r k
    else st.holdings r k
  last := fun r => if r < n then recvIdx n s r else st.last r

/-- State after `t` reduce-scatter rounds (rounds `0 .. t-1`). -/
def rsIter (n : ℕ) : ℕ → RingState
  | 0 => rsInit n
  | t + 1 => rsStep n t (rsIter n t)

/-- Terminal reduce-scatter state: `simulate_reduce_scatter` runs
`num_procs - 1` rounds. -/
def rsFinal (n : ℕ) : RingState := rsIter n (n - 1)

/-- One allgather round: every process sends (a deep copy of) the chunk
at `last_received[r]` to `(r+1) % n` without removing it; the receiver
inserts the incoming chunk only if its index is absent, and always sets
`last_received[r]` to the received index.  The round counter `step` is
unused by the state update (it only labels the rendering output). -/
def agStep (n : ℕ) (st : RingState) : RingState where
  holdings := fun r k =>
    if r < n then
      if k = st.last (prevRank n r) ∧ st.holdings r k = none then
        st.holdings (prevRank n r) (st.last (prevRank n r))
      else st.holdings r k
    else st.holdings r k
  last := fun r => if r < n then st.last (prevRank n r) else st.last r

/-- State after `t` allgather rounds starting from `init`. -/
def agIter (n : ℕ) (init : RingState) : ℕ → RingState
  | 0 => init
  | t + 1 => agStep n (agIter n init t)

/-- Terminal allgather state.  `simulate_allgather` deep-copies the
holdings it is given but keeps writing the very `last_received` dict the
caller passed in (line `last_received[r] = recv_idx`), so this is also
the value of the caller's Phase-1 `last_received` map after the call. -/
def agFinal (n : ℕ) : RingState := agIter n (rsFinal n) (n - 1)

/-- The contributor set a chunk of index `c` carries after `t`
reduce-scatter rounds: `{c, c+1, ..., c+t}` mod `n`. -/
def contribSet (n c t : ℕ) : Finset ℕ :=
  (Finset.range (t + 1)).image (fun j => (c + j) % n)

/-- The single ledger key rank `r` holds after `t` reduce-scatter
rounds: `(r - t) % n`. -/
def chunkAt (n t r : ℕ) : ℕ := (pymod ((r : ℤ) - t) n).toNat

lemma toNat_pymod_lt {n : ℕ} (hn : 0 < n) (a : ℤ) : (pymod a n).toNat < n := by
  have h1 := pymod_lt hn a
  have h2 := pymod_nonneg hn a
  omega

lemma toNat_pymod_cast {n : ℕ} (hn : 0 < n) (a : ℤ) :
    (((pymod a n).toNat : ℕ) : ℤ) = pymod a n :=
  Int.toNat_of_nonneg (pymod_nonneg hn a)

lemma pymod_add_right {n : ℕ} (a b : ℤ) :
    pymod (a + pymod b n) n = pymod (a + b) n := by
  unfold pymod
  rw [Int.add_emod, Int.emod_emod_of_dvd b dvd_rfl, ← Int.add_emod]

lemma natMod_to_pymod (a n : ℕ) : ((a % n : ℕ) : ℤ) = pymod (a : ℤ) n :=
  Int.natCast_mod a n

lemma chunkAt_lt {n : ℕ} (hn : 0 < n) (t r : ℕ) : chunkAt n t r < n :=
  toNat_pymod_lt hn _

lemma prevRank_lt {n : ℕ} (hn : 0 < n) (r : ℕ) : prevRank n r < n :=
  toNat_pymod_lt hn _

lemma recvIdx_eq_chunkAt (n t r : ℕ) : recvIdx n t r = chunkAt n (t + 1) r := by
  unfold recvIdx chunkAt
  congr 1
  apply pymod_congr
  congr 1
  push_cast
  ring

lemma sendIdx_eq_chunkAt (n t r : ℕ) : sendIdx n t r = chunkAt n t r := rfl

lemma sendIdx_prev {n : ℕ} (hn : 0 < n) (t r : ℕ) :
    sendIdx n t (prevRank n r) = recvIdx n t r := by
  unfold sendIdx recvIdx prevRank
  congr 1
  rw [toNat_pymod_cast hn, pymod_sub_left]
  apply pymod_congr
  congr 1
  ring

lemma sendIdx_ne_recvIdx {n : ℕ} (hn : 2 ≤ n) (t r : ℕ) :
    sendIdx n t r ≠ recvIdx n t r := by
  unfold sendIdx recvIdx
  intro h
  have h0 : 0 < n := by omega
  have hc : pymod ((r : ℤ) - t) n = pymod ((r : ℤ) - t - 1) n := by
    have := toNat_pymod_cast h0 ((r : ℤ) - t)
    have := toNat_pymod_cast h0 ((r : ℤ) - t - 1)
    omega
  have hdvd := pymod_ne (n := n) (a := ((r : ℤ) - t)) (b := ((r : ℤ) - t - 1))
  have : ¬ ((n : ℤ) ∣ ((r : ℤ) - t - ((r : ℤ) - t - 1))) := by
    intro hd
    have h1 : ((r : ℤ) - t - ((r : ℤ) - t - 1)) = 1 := by ring
    rw [h1] at hd
    have := Int.le_of_dvd (by norm_num) hd
    omega
  exact hdvd this hc

lemma contribSet_succ (n c t : ℕ) :
    contribSet n c (t + 1) = insert ((c + (t + 1)) % n) (contribSet n c t) := by
  unfold contribSet
  rw [Finset.range_succ, Finset.image_insert]

lemma mem_contribSet {n c t x : ℕ} :
    x ∈ contribSet n c t ↔ ∃ j ≤ t, (c + j) % n = x := by
  unfold contribSet
  simp [Finset.mem_image, Nat.lt_succ_iff]

lemma contribSet_zero {n c : ℕ} (hc : c < n) : contribSet n c 0 = {c} := by
  unfold contribSet
  simp [Nat.mod_eq_of_lt hc]

/-- After the final reduce-scatter round the travelling chunk has
collected every rank. -/
lemma contribSet_full {n : ℕ} (hn : 0 < n) (c t : ℕ) (ht : n - 1 ≤ t) :
    contribSet n c t = Finset.range n := by
  apply Finset.ext
  intro x
  rw [mem_contribSet, Finset.mem_range]
  constructor
  · rintro ⟨j, _, rfl⟩
    exact Nat.mod_lt _ hn
  · intro hx
    refine ⟨(pymod ((x : ℤ) - c) n).toNat, by have := toNat_pymod_lt hn ((x : ℤ) - c); omega, ?_⟩
    have hcast : (((c + (pymod ((x : ℤ) - c) n).toNat) % n : ℕ) : ℤ) = (x : ℤ) := by
      rw [natMod_to_pymod]
      push_cast [toNat_pymod_cast hn]
      rw [pymod_add_right,
        show ((c : ℤ) + ((x : ℤ) - c)) = (x : ℤ) by ring]
      exact pymod_natCast hx
    exact_mod_cast hcast

lemma contribSet_card_le (n c t : ℕ) : (contribSet n c t).card ≤ t + 1 :=
  le_trans Finset.card_image_le (by simp)

lemma contribSet_ne_range {n c t : ℕ} (h : t + 1 < n) :
    contribSet n c t ≠ Finset.range n := by
  intro hEq
  have h1 := contribSet_card_le n c t
  rw [hEq, Finset.card_range] at h1
  omega

lemma contribSet_mono (n c : ℕ) {t₁ t₂ : ℕ} (h : t₁ ≤ t₂) :
    contribSet n c t₁ ⊆ contribSet n c t₂ :=
  Finset.image_subset_image (Finset.range_subset.mpr (by omega))

/-- The receiving rank is exactly the element the merge step adds: for
`c = (r - (t+1)) % n` we have `(c + (t+1)) % n = r`. -/
lemma insert_contrib {n : ℕ} (hn : 0 < n) {t r : ℕ} (hr : r < n) :
    insert r (contribSet n (chunkAt n (t + 1) r) t)
      = contribSet n (chunkAt n (t + 1) r) (t + 1) := by
  rw [contribSet_succ]
  congr 1
  have hc : ((chunkAt n (t + 1) r : ℕ) : ℤ) = pymod ((r : ℤ) - (t + 1 : ℕ)) n :=
    toNat_pymod_cast hn _
  have hcast : (((chunkAt n (t + 1) r + (t + 1)) % n : ℕ) : ℤ) = (r : ℤ) := by
    rw [natMod_to_pymod]
    push_cast [hc]
    rw [pymod_add_left,
      show ((r : ℤ) - ((t : ℤ) + 1) + ((t : ℤ) + 1)) = (r : ℤ) by ring]
    exact pymod_natCast hr
  exact_mod_cast hcast.symm

/-- Reduce-scatter invariant: after `t` rounds every rank `r < n` holds
exactly one ledger entry, at key `(r - t) % n`, whose chunk has idx equal
to its key and contributor set `{key, key+1, ..., key+t} mod n`; and
`last_received[r] = (r - t) % n`. -/
lemma rs_inv {n : ℕ} (hn : 2 ≤ n) :
    ∀ (t : ℕ), ∀ r, r < n →
      ((rsIter n t).last r = chunkAt n t r ∧
       ∀ k, (rsIter n t).holdings r k =
         if k = chunkAt n t r then some ⟨k, contribSet n k t⟩ else none) := by
  have hn0 : 0 < n := by omega
  intro t
  induction t with
  | zero =>
      intro r hr
      have hc : chunkAt n 0 r = r := by
        unfold chunkAt
        rw [show ((r : ℤ) - (0 : ℕ)) = (r : ℤ) by push_cast; ring, pymod_natCast hr]
        simp
      constructor
      · show r = chunkAt n 0 r
        rw [hc]
      · intro k
        have hun : (rsIter n 0).holdings r k
            = (if r < n ∧ k = r then some (Chunk.mk r {r}) else none) := rfl
        rw [hun, hc]
        by_cases hk : k = r
        · subst hk
          rw [if_pos ⟨hr, rfl⟩, if_pos rfl, contribSet_zero hr]
        · rw [if_neg (fun h => hk h.2), if_neg hk]
  | succ t ih =>
      intro r hr
      have hrp : prevRank n r < n := prevRank_lt hn0 r
      have hrc : recvIdx n t r = chunkAt n (t + 1) r := recvIdx_eq_chunkAt n t r
      constructor
      · show (if r < n then recvIdx n t r else (rsIter n t).last r) = _
        rw [if_pos hr, hrc]
      · intro k
        show (if r < n then
                if k = recvIdx n t r then
                  ((rsIter n t).holdings (prevRank n r)
                    (sendIdx n t (prevRank n r))).map
                    (fun c => ⟨c.idx, insert r c.contributors⟩)
                else if k = sendIdx n t r then none
                else (rsIter n t).holdings r k
              else (rsIter n t).holdings r k) = _
        rw [if_pos hr]
        by_cases hk : k = recvIdx n t r
        · rw [if_pos hk]
          have hIH := (ih (prevRank n r) hrp).2 (sendIdx n t (prevRank n r))
          rw [if_pos (sendIdx_eq_chunkAt n t (prevRank n r))] at hIH
          rw [hIH]
          have hkey : sendIdx n t (prevRank n r) = k := by
            rw [sendIdx_prev hn0 t r, ← hk]
          have hkc : k = chunkAt n (t + 1) r := by rw [hk, hrc]
          rw [hkey]
          simp only [Option.map_some']
          rw [if_pos hkc]
          show some (Chunk.mk k (insert r (contribSet n k t)))
              = some (Chunk.mk k (contribSet n k (t + 1)))
          rw [hkc, insert_contrib hn0 hr]
        · rw [if_neg hk]
          by_cases hks : k = sendIdx n t r
          · rw [if_pos hks, if_neg (by rw [← hrc]; exact hk)]
          · rw [if_neg hks, (ih r hr).2 k,
              if_neg (by rw [sendIdx_eq_chunkAt] at hks; exact hks),
              if_neg (by rw [← hrc]; exact hk)]
lemma pymod_eq_of_dvd_sub {n : ℕ} {a b : ℤ} (h : (n : ℤ) ∣ (a - b)) :
    pymod a n = pymod b n := by
  unfold pymod
  exact Int.emod_eq_emod_iff_emod_sub_eq_zero.mpr (Int.emod_eq_zero_of_dvd h)

lemma pymod_sub_right {n : ℕ} (a b : ℤ) :
    pymod (a - pymod b n) n = pymod (a - b) n := by
  unfold pymod
  rw [Int.sub_emod, Int.emod_emod_of_dvd b dvd_rfl, ← Int.sub_emod]

/-- The ledger keys rank `r` possesses after `t` allgather rounds:
`{(r+1) % n, r % n, ..., (r+1-t) % n}`. -/
def agKeys (n r t : ℕ) : Finset ℕ :=
  (Finset.range (t + 1)).image
    (fun (j : ℕ) => (pymod ((r : ℤ) + 1 - (j : ℤ)) n).toNat)

lemma mem_agKeys {n r t k : ℕ} :
    k ∈ agKeys n r t ↔ ∃ j ≤ t, (pymod ((r : ℤ) + 1 - j) n).toNat = k := by
  unfold agKeys
  simp [Nat.lt_succ_iff]

lemma agKeys_succ (n r t : ℕ) :
    agKeys n r (t + 1)
      = insert ((pymod ((r : ℤ) + 1 - ((t + 1 : ℕ) : ℤ)) n).toNat) (agKeys n r t) := by
  unfold agKeys
  rw [Finset.range_succ, Finset.image_insert]

lemma agKeys_mono (n r : ℕ) {t₁ t₂ : ℕ} (h : t₁ ≤ t₂) :
    agKeys n r t₁ ⊆ agKeys n r t₂ :=
  Finset.image_subset_image (Finset.range_subset.mpr (by omega))

lemma agKeys_full {n : ℕ} (hn0 : 0 < n) {r t : ℕ} (ht : n - 1 ≤ t) (k : ℕ) :
    k ∈ agKeys n r t ↔ k < n := by
  rw [mem_agKeys]
  constructor
  · rintro ⟨j, _, rfl⟩
    exact toNat_pymod_lt hn0 _
  · intro hk
    refine ⟨(pymod ((r : ℤ) + 1 - k) n).toNat,
      by have := toNat_pymod_lt hn0 ((r : ℤ) + 1 - k); omega, ?_⟩
    rw [toNat_pymod_cast hn0, pymod_sub_right,
      show ((r : ℤ) + 1 - ((r : ℤ) + 1 - k)) = (k : ℤ) by ring,
      pymod_natCast hk]
    simp

/-- `last_received` of the predecessor after `t` allgather rounds is the
index `(r - t) % n` the process receives in round `t`. -/
lemma last_prev_step {n : ℕ} (hn0 : 0 < n) (t r : ℕ) :
    (pymod (((prevRank n r : ℕ) : ℤ) + 1 - t) n).toNat
      = (pymod ((r : ℤ) - t) n).toNat := by
  congr 1
  unfold prevRank
  rw [toNat_pymod_cast hn0,
    show (pymod ((r : ℤ) - 1) n + 1 - (t : ℤ))
      = (pymod ((r : ℤ) - 1) n + (1 - (t : ℤ))) by ring,
    pymod_add_left]
  exact pymod_eq_of_dvd_sub ⟨0, by ring⟩

lemma chunkAt_final {n : ℕ} (hn : 1 ≤ n) (r : ℕ) :
    chunkAt n (n - 1) r = (pymod ((r : ℤ) + 1 - ((0 : ℕ) : ℤ)) n).toNat := by
  unfold chunkAt
  congr 1
  apply pymod_eq_of_dvd_sub
  exact ⟨-1, by omega⟩

/-- Allgather invariant, starting from the terminal reduce-scatter
state: after `t` rounds every rank `r < n` has exactly the ledger keys
`agKeys n r t`, every entry is a fully reduced chunk (contributors =
all ranks), and `last_received[r] = (r + 1 - t) % n`. -/
lemma ag_inv {n : ℕ} (hn : 2 ≤ n) :
    ∀ (t : ℕ), ∀ r, r < n →
      ((agIter n (rsFinal n) t).last r = (pymod ((r : ℤ) + 1 - t) n).toNat ∧
       ∀ k, (agIter n (rsFinal n) t).holdings r k =
         if k ∈ agKeys n r t then some ⟨k, Finset.range n⟩ else none) := by
  have hn0 : 0 < n := by omega
  intro t
  induction t with
  | zero =>
      intro r hr
      obtain ⟨hlast, hhold⟩ := rs_inv hn (n - 1) r hr
      have hc : chunkAt n (n - 1) r = (pymod ((r : ℤ) + 1 - ((0 : ℕ) : ℤ)) n).toNat :=
        chunkAt_final (by omega) r
      constructor
      · show (rsFinal n).last r = _
        rw [show rsFinal n = rsIter n (n - 1) from rfl, hlast, hc]
      · intro k
        show (rsFinal n).holdings r k = _
        rw [show rsFinal n = rsIter n (n - 1) from rfl, hhold k]
        have hkeys : agKeys n r 0
            = {(pymod ((r : ℤ) + 1 - ((0 : ℕ) : ℤ)) n).toNat} := by
          unfold agKeys
          simp
        rw [hkeys, hc]
        by_cases hk : k = (pymod ((r : ℤ) + 1 - ((0 : ℕ) : ℤ)) n).toNat
        · rw [if_pos hk, if_pos (by rw [hk]; exact Finset.mem_singleton_self _),
            contribSet_full hn0 _ _ le_rfl]
        · rw [if_neg hk, if_neg (by rw [Finset.mem_singleton]; exact hk)]
  | succ t ih =>
      intro r hr
      have hrp : prevRank n r < n := prevRank_lt hn0 r
      have hLprev : (agIter n (rsFinal n) t).last (prevRank n r)
          = (pymod ((r : ℤ) - t) n).toNat := by
        rw [(ih (prevRank n r) hrp).1, last_prev_step hn0]
      have htarget : (pymod ((r : ℤ) + 1 - ((t + 1 : ℕ) : ℤ)) n).toNat
          = (pymod ((r : ℤ) - t) n).toNat := by
        congr 1
        apply pymod_eq_of_dvd_sub
        exact ⟨0, by push_cast; ring⟩
      constructor
      · show (if r < n then (agIter n (rsFinal n) t).last (prevRank n r)
               else (agIter n (rsFinal n) t).last r) = _
        rw [if_pos hr, hLprev, htarget]
      · intro k
        show (if r < n then
                if k = (agIter n (rsFinal n) t).last (prevRank n r) ∧
                    (agIter n (rsFinal n) t).holdings r k = none then
                  (agIter n (rsFinal n) t).holdings (prevRank n r)
                    ((agIter n (rsFinal n) t).last (prevRank n r))
                else (agIter n (rsFinal n) t).holdings r k
              else (agIter n (rsFinal n) t).holdings r k) = _
        rw [if_pos hr]
        have hholdr := (ih r hr).2
        have hholdp := (ih (prevRank n r) hrp).2
        rw [agKeys_succ, htarget]
        by_cases hk : k = (pymod ((r : ℤ) - t) n).toNat
        · by_cases hmem : k ∈ agKeys n r t
          · have hcond : ¬(k = (agIter n (rsFinal n) t).last (prevRank n r) ∧
                (agIter n (rsFinal n) t).holdings r k = none) := by
              rintro ⟨-, hnone⟩
              rw [hholdr k, if_pos hmem] at hnone
              exact Option.some_ne_none _ hnone
            rw [if_neg hcond, hholdr k, if_pos hmem,
              if_pos (Finset.mem_insert_of_mem hmem)]
          · have hcond : k = (agIter n (rsFinal n) t).last (prevRank n r) ∧
                (agIter n (rsFinal n) t).holdings r k = none := by
              refine ⟨by rw [hLprev, hk], ?_⟩
              rw [hholdr k, if_neg hmem]
            rw [if_pos hcond, hLprev, hholdp _,
              if_pos (by
                rw [mem_agKeys]
                exact ⟨t, le_rfl, last_prev_step hn0 t r⟩),
              if_pos (by rw [hk]; exact Finset.mem_insert_self _ _), ← hk]
        · have hcond : ¬(k = (agIter n (rsFinal n) t).last (prevRank n r) ∧
              (agIter n (rsFinal n) t).holdings r k = none) := by
            rintro ⟨hkl, -⟩
            rw [hLprev] at hkl
            exact hk hkl
          rw [if_neg hcond, hholdr k]
          by_cases hmem : k ∈ agKeys n r t
          · rw [if_pos hmem, if_pos (Finset.mem_insert_of_mem hmem)]
          · rw [if_neg hmem,
              if_neg (by
                rw [Finset.mem_insert]
                rintro (h1 | h2)
                exacts [hk h1, hmem h2])]

/-- C3 witness at rank 2, step 1, worldSize 16. -/
theorem pi_partner_spec_witness :
    1 ≤ 16 ∧
    ((pi 2 1 16 =
      (if 2 % 2 = 0 then pymod ((2 : ℤ) + rho 1) 16
       else pymod ((2 : ℤ) - rho 1) 16)) ∧
    0 ≤ pi 2 1 16 ∧ pi 2 1 16 < 16 ∧
    pi 0 0 16 = 1 ∧ pi 1 0 16 = 0) :=
  ⟨by decide, pi_partner_spec 2 1 16 (by decide)⟩

/-- C1: for every worldSize ≥ 2, after all worldSize−1 reduce-scatter
rounds the chunk stored at index `lastReceivedIndex[r]` in rank r's ledger
has a contributor set equal to the full rank set `{0, …, worldSize−1}`,
and this becomes true exactly at the final round: at every earlier round
the chunk at the last-received index is not yet fully reduced.  (The
ledgers are independent of the vectorSize argument, which only feeds the
byte labels of the rendering rows.) -/
theorem reduce_scatter_last_chunk_full (n : ℕ) (hn : 2 ≤ n) (r : ℕ)
    (hr : r < n) :
    (∃ ch : Chunk,
      (rsFinal n).holdings r ((rsFinal n).last r) = some ch ∧
      ch.contributors = Finset.range n) ∧
    (∀ t < n - 1, ∃ ch : Chunk,
      (rsIter n t).holdings r ((rsIter n t).last r) = some ch ∧
      ch.contributors ≠ Finset.range n) := by
  have hn0 : 0 < n := by omega
  constructor
  · obtain ⟨hlast, hhold⟩ := rs_inv hn (n - 1) r hr
    refine ⟨⟨chunkAt n (n - 1) r, contribSet n (chunkAt n (n - 1) r) (n - 1)⟩,
      ?_, ?_⟩
    · show (rsIter n (n - 1)).holdings r ((rsIter n (n - 1)).last r) = _
      rw [hlast, hhold, if_pos rfl]
    · exact contribSet_full hn0 _ _ le_rfl
  · intro t ht
    obtain ⟨hlast, hhold⟩ := rs_inv hn t r hr
    refine ⟨⟨chunkAt n t r, contribSet n (chunkAt n t r) t⟩, ?_, ?_⟩
    · rw [hlast, hhold, if_pos rfl]
    · exact contribSet_ne_range (by omega)

/-- C1 witness at worldSize 2, rank 0. -/
theorem reduce_scatter_last_chunk_full_witness :
    2 ≤ 2 ∧ (0 : ℕ) < 2 ∧
    ((∃ ch : Chunk,
      (rsFinal 2).holdings 0 ((rsFinal 2).last 0) = some ch ∧
      ch.contributors = Finset.range 2) ∧
    (∀ t < 2 - 1, ∃ ch : Chunk,
      (rsIter 2 t).holdings 0 ((rsIter 2 t).last 0) = some ch ∧
      ch.contributors ≠ Finset.range 2)) :=
  ⟨by norm_num, by norm_num,
    reduce_scatter_last_chunk_full 2 (by norm_num) 0 (by norm_num)⟩

/-- C2: for every worldSize ≥ 2, after the allgather phase runs all
worldSize−1 rounds from the reduce-scatter terminal state, every rank's
ledger has an entry exactly at each chunk index in `[0, worldSize)`, and
every entry is a chunk whose idx equals its key and whose contributor set
is the full rank set. -/
theorem allgather_roundtrip_complete (n : ℕ) (hn : 2 ≤ n) (r : ℕ)
    (hr : r < n) :
    (∀ k, ((agFinal n).holdings r k).isSome = true ↔ k < n) ∧
    (∀ k ch, (agFinal n).holdings r k = some ch →
      ch.idx = k ∧ ch.contributors = Finset.range n) := by
  have hn0 : 0 < n := by omega
  obtain ⟨-, hhold⟩ := ag_inv hn (n - 1) r hr
  constructor
  · intro k
    have h := hhold k
    rw [show agFinal n = agIter n (rsFinal n) (n - 1) from rfl, h]
    by_cases hk : k ∈ agKeys n r (n - 1)
    · simp [hk, (agKeys_full hn0 le_rfl k).mp hk]
    · have : ¬ k < n := fun hlt => hk ((agKeys_full hn0 le_rfl k).mpr hlt)
      simp [hk, this]
  · intro k ch h
    rw [show agFinal n = agIter n (rsFinal n) (n - 1) from rfl, hhold k] at h
    by_cases hk : k ∈ agKeys n r (n - 1)
    · rw [if_pos hk] at h
      cases h
      exact ⟨rfl, rfl⟩
    · rw [if_neg hk] at h
      cases h

/-- C2 witness at worldSize 2, rank 1. -/
theorem allgather_roundtrip_complete_witness :
    2 ≤ 2 ∧ (1 : ℕ) < 2 ∧
    ((∀ k, ((agFinal 2).holdings 1 k).isSome = true ↔ k < 2) ∧
    (∀ k ch, (agFinal 2).holdings 1 k = some ch →
      ch.idx = k ∧ ch.contributors = Finset.range 2)) :=
  ⟨by norm_num, by norm_num,
    allgather_roundtrip_complete 2 (by norm_num) 1 (by norm_num)⟩

/-- C7 counterexample: the claim that the caller's Phase-1
`lastReceivedIndex` map still holds its Phase-1 values after
`simulate_allgather` returns is false already at worldSize 2:
Phase 1 left rank 0's entry at 1, but the allgather phase writes the very
dict the caller passed in (`last_received[r] = recv_idx`), leaving 0
there after the call. -/
theorem allgather_mutates_last_received :
    (agFinal 2).last 0 = 0 ∧ (rsFinal 2).last 0 = 1 := by
  constructor <;> decide

/-- C7 amended: the terminal Phase-1 ledgers are deep-copied by
`simulate_allgather` before any mutation (so the caller's Phase-1 ledger
snapshots stay valid), but the `lastReceivedIndex` map is NOT copied: it
is mutated in place, and after the call the caller's map holds the final
allgather indices `(r + 1 - (worldSize-1)) mod worldSize`, which differ
from the Phase-1 terminal values at every rank, for every
worldSize ≥ 2. -/
theorem allgather_last_received_after (n : ℕ) (hn : 2 ≤ n) (r : ℕ)
    (hr : r < n) :
    (agFinal n).last r = (pymod ((r : ℤ) + 1 - ((n - 1 : ℕ) : ℤ)) n).toNat ∧
    (agFinal n).last r ≠ (rsFinal n).last r := by
  have hn0 : 0 < n := by omega
  obtain ⟨hlast, -⟩ := ag_inv hn (n - 1) r hr
  obtain ⟨hlast2, -⟩ := rs_inv hn (n - 1) r hr
  refine ⟨hlast, ?_⟩
  rw [show agFinal n = agIter n (rsFinal n) (n - 1) from rfl, hlast,
    show rsFinal n = rsIter n (n - 1) from rfl, hlast2]
  unfold chunkAt
  intro h
  have hc1 := toNat_pymod_cast hn0 ((r : ℤ) + 1 - ((n - 1 : ℕ) : ℤ))
  have hc2 := toNat_pymod_cast hn0 ((r : ℤ) - ((n - 1 : ℕ) : ℤ))
  have heq : pymod ((r : ℤ) + 1 - ((n - 1 : ℕ) : ℤ)) n
      = pymod ((r : ℤ) - ((n - 1 : ℕ) : ℤ)) n := by omega
  refine pymod_ne (n := n) (a := (r : ℤ) + 1 - ((n - 1 : ℕ) : ℤ))
    (b := (r : ℤ) - ((n - 1 : ℕ) : ℤ)) ?_ heq
  intro hd
  have h1 : ((r : ℤ) + 1 - ((n - 1 : ℕ) : ℤ) - ((r : ℤ) - ((n - 1 : ℕ) : ℤ)))
      = 1 := by ring
  rw [h1] at hd
  have := Int.le_of_dvd (by norm_num) hd
  omega

/-- C7 amended-claim witness at worldSize 3, rank 1. -/
theorem allgather_last_received_after_witness :
    2 ≤ 3 ∧ (1 : ℕ) < 3 ∧
    ((agFinal 3).last 1 = (pymod ((1 : ℤ) + 1 - ((3 - 1 : ℕ) : ℤ)) 3).toNat ∧
    (agFinal 3).last 1 ≠ (rsFinal 3).last 1) :=
  ⟨by norm_num, by norm_num,
    allgather_last_received_after 3 (by norm_num) 1 (by norm_num)⟩

/-- C9: contributor sets only grow, round over round, in both phases.
Reduce-scatter: a chunk held anywhere before a round (traced by its idx
field, which identifies the originating rank) reappears after the round
with a contributor superset, and every post-round occurrence of that
chunk has a contributor superset of the pre-round set.  Allgather: a
ledger entry, once present, persists with the identical chunk through
every later round, so its contributor set never shrinks or resets. -/
theorem contributor_sets_monotone (n : ℕ) (hn : 2 ≤ n) (t : ℕ) :
    (∀ r k c S, r < n →
      (rsIter n t).holdings r k = some (Chunk.mk c S) →
      ((∃ r2 k2 S2, r2 < n ∧
          (rsIter n (t + 1)).holdings r2 k2 = some (Chunk.mk c S2) ∧ S ⊆ S2) ∧
       (∀ r2 k2 S2, r2 < n →
          (rsIter n (t + 1)).holdings r2 k2 = some (Chunk.mk c S2) →
          S ⊆ S2))) ∧
    (∀ r k ch, r < n →
      (agIter n (rsFinal n) t).holdings r k = some ch →
      (agIter n (rsFinal n) (t + 1)).holdings r k = some ch) := by
  have hn0 : 0 < n := by omega
  constructor
  · intro r k c S hr hsome
    have hhold := (rs_inv hn t r hr).2 k
    rw [hsome] at hhold
    by_cases hk : k = chunkAt n t r
    · rw [if_pos hk] at hhold
      have hinj := Option.some.inj hhold
      rw [Chunk.mk.injEq] at hinj
      obtain ⟨hc, hS⟩ := hinj
      subst hc
      subst hS
      constructor
      · have hr2 : (pymod ((r : ℤ) + 1) n).toNat < n := toNat_pymod_lt hn0 _
        have hkey : chunkAt n (t + 1) ((pymod ((r : ℤ) + 1) n).toNat)
            = chunkAt n t r := by
          unfold chunkAt
          congr 1
          rw [toNat_pymod_cast hn0, pymod_sub_left]
          apply pymod_eq_of_dvd_sub
          exact ⟨0, by push_cast; ring⟩
        refine ⟨(pymod ((r : ℤ) + 1) n).toNat, c, contribSet n c (t + 1),
          hr2, ?_, contribSet_mono n c (by omega)⟩
        rw [(rs_inv hn (t + 1) _ hr2).2 c, if_pos (by rw [hk, ← hkey])]
      · intro r2 k2 S2 hr2 hsome2
        have hh2 := (rs_inv hn (t + 1) r2 hr2).2 k2
        rw [hsome2] at hh2
        by_cases hk2 : k2 = chunkAt n (t + 1) r2
        · rw [if_pos hk2] at hh2
          have hinj2 := Option.some.inj hh2
          rw [Chunk.mk.injEq] at hinj2
          obtain ⟨hc2, hS2⟩ := hinj2
          subst hc2
          subst hS2
          exact contribSet_mono n c (by omega)
        · rw [if_neg hk2] at hh2
          exact absurd hh2 (by simp)
    · rw [if_neg hk] at hhold
      exact absurd hhold (by simp)
  · intro r k ch hr hsome
    have hh := (ag_inv hn t r hr).2 k
    rw [hsome] at hh
    by_cases hk : k ∈ agKeys n r t
    · rw [if_pos hk] at hh
      rw [(ag_inv hn (t + 1) r hr).2 k,
        if_pos (agKeys_mono n r (Nat.le_succ t) hk)]
      exact hh.symm
    · rw [if_neg hk] at hh
      exact absurd hh (by simp)

/-- C9 witness at worldSize 2, round 0. -/
theorem contributor_sets_monotone_witness :
    2 ≤ 2 ∧
    ((∀ r k c S, r < 2 →
      (rsIter 2 0).holdings r k = some (Chunk.mk c S) →
      ((∃ r2 k2 S2, r2 < 2 ∧
          (rsIter 2 1).holdings r2 k2 = some (Chunk.mk c S2) ∧ S ⊆ S2) ∧
       (∀ r2 k2 S2, r2 < 2 →
          (rsIter 2 1).holdings r2 k2 = some (Chunk.mk c S2) →
          S ⊆ S2))) ∧
    (∀ r k ch, r < 2 →
      (agIter 2 (rsFinal 2) 0).holdings r k = some ch →
      (agIter 2 (rsFinal 2) 1).holdings r k = some ch)) :=
  ⟨by norm_num, contributor_sets_monotone 2 (by norm_num) 0⟩
